import Mathlib

/-!
Verification of the disease co-occurrence network pipeline of the
network_analysis scripts: construction of the weighted undirected
co-occurrence graph from patient-disease records, degree and strength
centralities, the edge distance assignment used by weighted betweenness,
main-component extraction, the inter-community graph and the
per-community summary statistics.
-/

/-- One record of the conditions table: a person identifier, a condition
concept identifier, and an optional condition name, where the value none
models a missing pandas entry. -/
structure Row where
  person : Nat
  disease : Nat
  name : Option String
deriving DecidableEq, Repr

/-- Rows surviving the notna filter on the concept name column. -/
def validRows (rows : List Row) : List Row :=
  rows.filter (fun r => r.name.isSome)

/-- Distinct diseases of one patient: group the filtered table by person
and reduce each group to the set of its condition identifiers. -/
def patientDiseases (rows : List Row) (p : Nat) : Finset Nat :=
  (((validRows rows).filter (fun r => r.person = p)).map Row.disease).toFinset

/-- The distinct patients of the filtered table: the keys of the groupby
dictionary. -/
def persons (rows : List Row) : Finset Nat :=
  ((validRows rows).map Row.person).toFinset

/-- Contribution of one patient disease set to the counter keyed by the
sorted pair of a and b: the loop skips patients with fewer than two
distinct diseases and otherwise emits every combination of the sorted
set exactly once. -/
def pairIncr (s : Finset Nat) (a b : Nat) : Nat :=
  if s.card < 2 then 0
  else if a < b ∧ a ∈ s ∧ b ∈ s then 1 else 0

/-- Final value of the defaultdict counter at the key pair of a and b: the
loop visits each distinct patient exactly once, so the total is the sum of
the per-patient contributions; addition is commutative, so the dictionary
iteration order is irrelevant to the value. -/
def cooccurrence (rows : List Row) (a b : Nat) : Nat :=
  ∑ p ∈ persons rows, pairIncr (patientDiseases rows p) a b

/-- A weighted undirected graph in the networkx style: a node set, the set
of stored edge keys, and a weight attribute map. The builder stores every
edge under its sorted key. Weights are integers so that malformed
non-positive weights remain representable. -/
structure Graph where
  nodes : Finset Nat
  edges : Finset (Nat × Nat)
  w : Nat × Nat → Int

/-- Disease identifiers occurring in the filtered table: the keys of the
name dictionary and hence the node set of the full graph. -/
def diseaseIds (rows : List Row) : Finset Nat :=
  ((validRows rows).map Row.disease).toFinset

/-- Edge inclusion threshold of the builder. -/
def MIN_COOCCURRENCE : Nat := 2

/-- The full graph of the builder: one node per disease identifier in the
name dictionary, and one edge per sorted pair whose counter reaches the
threshold. Every retained counter key is a sorted pair of diseases of some
patient, so filtering the square of diseaseIds enumerates exactly the
retained keys; the weight attribute is the counter value. -/
def buildGraph (rows : List Row) : Graph where
  nodes := diseaseIds rows
  edges := (diseaseIds rows ×ˢ diseaseIds rows).filter
    (fun p => p.1 < p.2 ∧ MIN_COOCCURRENCE ≤ cooccurrence rows p.1 p.2)
  w := fun p => (cooccurrence rows p.1 p.2 : Int)

/-- Adjacency test: an edge is stored under one of its two orientations. -/
def adjB (G : Graph) (u v : Nat) : Bool :=
  decide ((u, v) ∈ G.edges) || decide ((v, u) ∈ G.edges)

/-- Neighborhood of a node as the adjacency view exposes it. -/
def nbr (G : Graph) (v : Nat) : Finset Nat :=
  G.nodes.filter (fun u => adjB G v u)

/-- Unweighted degree of a node. -/
def degree (G : Graph) (v : Nat) : Nat :=
  (nbr G v).card

/-- Weight of the stored edge joining u and v, zero when absent. -/
def wOf (G : Graph) (u v : Nat) : Int :=
  if (u, v) ∈ G.edges then G.w (u, v)
  else if (v, u) ∈ G.edges then G.w (v, u) else 0

/-- Strength, the weighted degree: the sum of incident edge weights. -/
def strength (G : Graph) (v : Nat) : Int :=
  ∑ u ∈ nbr G v, wOf G v u

/-- One breadth step: keep the current set and add every node of the graph
adjacent to it. -/
def nbrsStep (G : Graph) (s : Finset Nat) : Finset Nat :=
  s ∪ G.nodes.filter (fun u => ∃ v ∈ s, adjB G v u)

/-- Saturated breadth-first reachable set from v, as a bounded iteration:
after as many steps as there are nodes the frontier is stable. -/
def reach (G : Graph) (v : Nat) : Finset Nat :=
  (nbrsStep G)^[G.nodes.card] {v}

/-- Connectivity in the style of the is_connected check: every node
reaches every node. -/
def isConnectedB (G : Graph) : Prop :=
  ∀ u ∈ G.nodes, ∀ v ∈ G.nodes, u ∈ reach G v

instance (G : Graph) : Decidable (isConnectedB G) :=
  inferInstanceAs (Decidable (∀ u ∈ G.nodes, ∀ v ∈ G.nodes, u ∈ reach G v))

/-- Error raised when the main component of an empty graph is requested. -/
inductive NetError where
  | EmptyGraphError
deriving DecidableEq, Repr

instance {ε α : Type} [DecidableEq ε] [DecidableEq α] : DecidableEq (Except ε α) := fun a b =>
  match a, b with
  | Except.error x, Except.error y =>
    if h : x = y then isTrue (by rw [h]) else isFalse (by intro hh; cases hh; exact h rfl)
  | Except.error _, Except.ok _ => isFalse (by intro hh; cases hh)
  | Except.ok _, Except.error _ => isFalse (by intro hh; cases hh)
  | Except.ok x, Except.ok y =>
    if h : x = y then isTrue (by rw [h]) else isFalse (by intro hh; cases hh; exact h rfl)

/-- The breadth-first component of every node, in ascending node order,
mirroring the enumeration of the connected components. -/
def componentsList (G : Graph) : List (Finset Nat) :=
  (G.nodes.sort (· ≤ ·)).map (reach G)

/-- First maximum by cardinality, as the max builtin with a length key
picks it. -/
def largestOf (l : List (Finset Nat)) : Finset Nat :=
  l.foldl (fun best x => if best.card < x.card then x else best) ∅

/-- Main component extraction: connectivity is undefined on the null graph
(the EmptyGraphError of the spec); a connected graph is its own main
component; otherwise the largest component wins. -/
def mainComponent (G : Graph) : Except NetError (Finset Nat) :=
  if G.nodes.card = 0 then Except.error NetError.EmptyGraphError
  else if isConnectedB G then Except.ok G.nodes
  else Except.ok (largestOf (componentsList G))

/-- Degree centrality exactly as the engine computes it: degree over N - 1
behind a guard on the node count. -/
def degCentrality (G : Graph) (v : Nat) : ℚ :=
  if 1 < G.nodes.card then (degree G v : ℚ) / ((G.nodes.card : ℚ) - 1) else 0

/-- The max_strength variable of the engine: the maximum of the strength
map when the node set is nonempty, and the fallback value one otherwise. -/
def maxStrengthCode (G : Graph) : Int :=
  ((G.nodes.image (strength G)).max).unbot' 1

/-- The maximum strength over all nodes as the spec words it, zero when
the node set is empty (and in particular zero on a graph with no edges,
where every strength vanishes). -/
def maxStrengthSpec (G : Graph) : Int :=
  ((G.nodes.image (strength G)).max).unbot' 0

/-- Normalised strength exactly as the engine computes it: strength over
max strength behind a positivity guard. -/
def strengthNorm (G : Graph) (v : Nat) : ℚ :=
  if 0 < maxStrengthCode G then (strength G v : ℚ) / ((maxStrengthCode G : ℚ)) else 0

/-- Distance attribute assigned to an edge before weighted betweenness:
the reciprocal weight behind a positivity guard, one on a malformed
weight. -/
def edgeDistance (G : Graph) (p : Nat × Nat) : ℚ :=
  if 0 < G.w p then 1 / (G.w p : ℚ) else 1

/-- Concrete three-patient scenario: patient 10 has diseases 1 and 2,
patient 20 has diseases 1, 2 and 3, patient 30 has diseases 2 and 3. -/
def rows3 : List Row :=
  [⟨10, 1, some "DA"⟩, ⟨10, 2, some "DB"⟩,
   ⟨20, 1, some "DA"⟩, ⟨20, 2, some "DB"⟩, ⟨20, 3, some "DC"⟩,
   ⟨30, 2, some "DB"⟩, ⟨30, 3, some "DC"⟩]

/-- Canonical unordered key for a pair of community identifiers. -/
def ckey (x y : Nat) : Nat × Nat := (min x y, max x y)

/-- Processing of one original edge while building the community graph:
skip an intra-community edge, accumulate onto an existing inter-community
edge, or create that edge carrying the weight of the crossing edge. -/
def addCEdge (part : Nat → Nat) (w : Nat × Nat → Int)
    (acc : Finset (Nat × Nat) × ((Nat × Nat) → Int)) (e : Nat × Nat) :
    Finset (Nat × Nat) × ((Nat × Nat) → Int) :=
  if part e.1 = part e.2 then acc
  else if ckey (part e.1) (part e.2) ∈ acc.1 then
    (acc.1, fun q => if q = ckey (part e.1) (part e.2) then acc.2 q + w e else acc.2 q)
  else
    (insert (ckey (part e.1) (part e.2)) acc.1,
     fun q => if q = ckey (part e.1) (part e.2) then w e else acc.2 q)

/-- The community-level graph: community nodes with a size attribute, and
the inter-community edge set with its accumulated weight map. -/
structure CGraph where
  cnodes : Finset Nat
  csize : Nat → Nat
  cedges : Finset (Nat × Nat)
  cw : Nat × Nat → Int

/-- Members of one community: the nodes the partition maps to it. -/
def commMembers (G : Graph) (part : Nat → Nat) (c : Nat) : Finset Nat :=
  G.nodes.filter (fun v => part v = c)

/-- Lexicographic comparison of pairs, used only to enumerate an edge set
in a canonical order. -/
def pairLe (a b : Nat × Nat) : Prop :=
  a.1 < b.1 ∨ (a.1 = b.1 ∧ a.2 ≤ b.2)

instance : DecidableRel pairLe := fun a b =>
  inferInstanceAs (Decidable (a.1 < b.1 ∨ (a.1 = b.1 ∧ a.2 ≤ b.2)))

instance : IsTotal (Nat × Nat) pairLe :=
  ⟨fun a b => by unfold pairLe; omega⟩

instance : IsTrans (Nat × Nat) pairLe :=
  ⟨fun a b c hab hbc => by unfold pairLe at *; omega⟩

instance : IsAntisymm (Nat × Nat) pairLe :=
  ⟨fun a b hab hba => by
    unfold pairLe at hab hba
    have h1 : a.1 = b.1 ∧ a.2 = b.2 := by omega
    exact Prod.ext h1.1 h1.2⟩

/-- Canonical list of the elements of a multiset of pairs, through
insertion sort, which is well defined on the quotient because sorted
permutations agree. -/
def sortPairs (m : Multiset (Nat × Nat)) : List (Nat × Nat) :=
  Quotient.liftOn m (fun l => l.insertionSort pairLe)
    (fun a b hab =>
      List.eq_of_perm_of_sorted
        ((List.perm_insertionSort pairLe a).trans
          (hab.trans (List.perm_insertionSort pairLe b).symm))
        (List.sorted_insertionSort pairLe a)
        (List.sorted_insertionSort pairLe b))

/-- Executable enumeration of the edge set, each stored edge exactly once. -/
def edgeList (G : Graph) : List (Nat × Nat) :=
  sortPairs G.edges.val

/-- Construction of the community-level graph: one node per community
identifier carrying the member count, then one pass over the original
edges accumulating inter-community weights. -/
def communityGraph (G : Graph) (part : Nat → Nat) : CGraph :=
  { cnodes := G.nodes.image part,
    csize := fun c => (commMembers G part c).card,
    cedges := ((edgeList G).foldl (addCEdge part G.w) (∅, fun _ => 0)).1,
    cw := ((edgeList G).foldl (addCEdge part G.w) (∅, fun _ => 0)).2 }

/-- An original edge crosses to the community key q when its endpoints lie
in two different communities whose canonical key is q. -/
def crossTo (part : Nat → Nat) (e : Nat × Nat) (q : Nat × Nat) : Prop :=
  part e.1 ≠ part e.2 ∧ ckey (part e.1) (part e.2) = q

instance (part : Nat → Nat) (e q : Nat × Nat) : Decidable (crossTo part e q) :=
  inferInstanceAs (Decidable (part e.1 ≠ part e.2 ∧ ckey (part e.1) (part e.2) = q))

/-- Induced subgraph on a node selection, in the networkx style: the kept
nodes are the selection intersected with the graph, the kept edges are
those with both endpoints selected. -/
def inducedSubgraph (G : Graph) (s : Finset Nat) : Graph where
  nodes := s ∩ G.nodes
  edges := G.edges.filter (fun p => p.1 ∈ s ∩ G.nodes ∧ p.2 ∈ s ∩ G.nodes)
  w := G.w

/-- Density of an undirected graph with the guard of the library: zero
when there is no edge or at most one node, otherwise twice the edge count
over the number of ordered node pairs. -/
def density (G : Graph) : ℚ :=
  if G.edges.card = 0 ∨ G.nodes.card ≤ 1 then 0
  else 2 * (G.edges.card : ℚ) / ((G.nodes.card : ℚ) * ((G.nodes.card : ℚ) - 1))

/-- Number of triangles through a node: unordered pairs of its neighbors
that are themselves adjacent. -/
def triangles (G : Graph) (v : Nat) : Nat :=
  ((nbr G v ×ˢ nbr G v).filter (fun p => p.1 < p.2 ∧ adjB G p.1 p.2)).card

/-- Local clustering coefficient of a node: zero below degree two,
otherwise the fraction of adjacent neighbor pairs. -/
def clustering (G : Graph) (v : Nat) : ℚ :=
  if degree G v < 2 then 0
  else 2 * (triangles G v : ℚ) / ((degree G v : ℚ) * ((degree G v : ℚ) - 1))

/-- Average local clustering coefficient over the node set. -/
def avgClustering (G : Graph) : ℚ :=
  (∑ v ∈ G.nodes, clustering G v) / (G.nodes.card : ℚ)

/-- One row of the community summary table: member count, internal edge
count, internal density, and average clustering of the induced subgraph. -/
def commSummary (G : Graph) (part : Nat → Nat) (c : Nat) : Nat × Nat × ℚ × ℚ :=
  ((commMembers G part c).card,
   (inducedSubgraph G (commMembers G part c)).edges.card,
   density (inducedSubgraph G (commMembers G part c)),
   avgClustering (inducedSubgraph G (commMembers G part c)))

/-- Recursive worker for the first-occurrence deduplication: keep an
element only when it has not been seen yet. -/
def dedupFirstAux (seen : List (Nat × String)) : List (Nat × String) → List (Nat × String)
  | [] => []
  | a :: l => if a ∈ seen then dedupFirstAux seen l else a :: dedupFirstAux (a :: seen) l

/-- Drop duplicates keeping the first occurrence of each element, as the
pandas drop_duplicates call orders the id-name pair table. -/
def dedupFirst (l : List (Nat × String)) : List (Nat × String) :=
  dedupFirstAux [] l

/-- Dictionary built from an association list by left-to-right insertion,
a later pair overwriting an earlier one at the same key, as the dict
builtin treats the zipped columns. -/
def dictOf (ps : List (Nat × String)) : Nat → Option String :=
  ps.foldl (fun m p => fun k => if k = p.1 then some p.2 else m k) (fun _ => none)

/-- The id-name pair column view of the filtered table. -/
def namePairs (rows : List Row) : List (Nat × String) :=
  rows.filterMap (fun r => r.name.map (fun s => (r.disease, s)))

/-- The disease name dictionary of the builder: drop duplicate id-name
pairs keeping first occurrences, then zip the two columns into a dict. -/
def diseaseNameMap (rows : List Row) : Nat → Option String :=
  dictOf (dedupFirst (namePairs rows))

/-- Modelled from the spec words for comparison: the first non-missing
name observed for a disease identifier. -/
def firstName (rows : List Row) (d : Nat) : Option String :=
  (((namePairs rows).filter (fun p => p.1 = d)).map Prod.snd).head?

/-- A malformed graph carrying a non-positive edge weight, for exercising
the distance guard. -/
def badGraph : Graph :=
  { nodes := {1, 2}, edges := {(1, 2)}, w := fun _ => 0 }

/-- Input on which one disease identifier is observed under two
conflicting names, the name Asthma first and the name Bronchitis second. -/
def rowsConflict : List Row :=
  [⟨5, 1, some "Asthma"⟩, ⟨6, 1, some "Bronchitis"⟩]

/-- Input on which disease 7 carries the single name Flu in every row. -/
def rowsSingleName : List Row :=
  [⟨5, 7, some "Flu"⟩, ⟨6, 7, some "Flu"⟩]

/-- Reachability along stored edges in either orientation. -/
def Reachable (G : Graph) (u v : Nat) : Prop :=
  Relation.ReflTransGen (fun x y => adjB G x y = true) u v

/-- A set is a connected component when it consists of exactly the nodes
of the graph reachable from one of the nodes of the graph. -/
def IsCompOf (G : Graph) (c : Finset Nat) : Prop :=
  ∃ v ∈ G.nodes, ∀ u, u ∈ c ↔ u ∈ G.nodes ∧ Reachable G v u

/-- Helper: for a sorted key pair, the per-patient contribution is the
indicator of the patient set containing both diseases; the guard skipping
small sets changes nothing, since containing two distinct diseases forces
at least two elements. -/
theorem pairIncr_eq_indicator (s : Finset Nat) (a b : Nat) (hab : a < b) :
    pairIncr s a b = if a ∈ s ∧ b ∈ s then 1 else 0 := by
  by_cases h : a ∈ s ∧ b ∈ s
  · have hsub : ({a, b} : Finset Nat) ⊆ s := by
      intro x hx
      rcases Finset.mem_insert.mp hx with rfl | hx
      · exact h.1
      · rw [Finset.mem_singleton.mp hx]; exact h.2
    have hcard : 2 ≤ s.card := by
      have h2 : ({a, b} : Finset Nat).card = 2 := Finset.card_pair (Nat.ne_of_lt hab)
      have := Finset.card_le_card hsub
      omega
    have hguard : ¬ s.card < 2 := by omega
    simp [pairIncr, hguard, hab, h]
  · by_cases hg : s.card < 2
    · simp [pairIncr, hg, h]
    · simp [pairIncr, hg, hab, h]

/-- Helper: for a sorted pair, the final counter value is the number of
distinct patients whose disease set contains both diseases. -/
theorem cooccurrence_eq_card (rows : List Row) (a b : Nat) (hab : a < b) :
    cooccurrence rows a b =
      ((persons rows).filter
        (fun p => a ∈ patientDiseases rows p ∧ b ∈ patientDiseases rows p)).card := by
  unfold cooccurrence
  rw [Finset.card_filter]
  exact Finset.sum_congr rfl (fun p _ => pairIncr_eq_indicator _ _ _ hab)

/-- C1: for every unordered pair of distinct diseases, the counter at the
canonical sorted key equals the number of distinct patients whose
deduplicated disease set contains both diseases; patients with fewer than
two distinct diseases contribute nothing, for every input record list. -/
theorem cooccurrence_pair_count (rows : List Row) (a b : Nat) (hab : a ≠ b) :
    cooccurrence rows (min a b) (max a b) =
      ((persons rows).filter
        (fun p => a ∈ patientDiseases rows p ∧ b ∈ patientDiseases rows p)).card := by
  rcases Nat.lt_or_ge a b with h | h
  · rw [min_eq_left (Nat.le_of_lt h), max_eq_right (Nat.le_of_lt h)]
    exact cooccurrence_eq_card rows a b h
  · have hlt : b < a := Nat.lt_of_le_of_ne h (Ne.symm hab)
    rw [min_eq_right (Nat.le_of_lt hlt), max_eq_left (Nat.le_of_lt hlt)]
    rw [cooccurrence_eq_card rows b a hlt]
    congr 1
    ext p
    simp only [Finset.mem_filter]
    tauto

/-- C3: the three-patient scenario produces exactly the nodes 1, 2, 3 and
the two edges of weight two joining 1 with 2 and 2 with 3; the pair of 1
and 3 is dropped, the main component holds all three nodes, node 2 has
degree two and nodes 1 and 3 have degree one. -/
theorem concrete_three_patient_scenario :
    (buildGraph rows3).nodes = {1, 2, 3} ∧
    (buildGraph rows3).nodes.card = 3 ∧
    (buildGraph rows3).edges = {(1, 2), (2, 3)} ∧
    (buildGraph rows3).edges.card = 2 ∧
    (buildGraph rows3).w (1, 2) = 2 ∧
    (buildGraph rows3).w (2, 3) = 2 ∧
    (1, 3) ∉ (buildGraph rows3).edges ∧
    (3, 1) ∉ (buildGraph rows3).edges ∧
    mainComponent (buildGraph rows3) = Except.ok {1, 2, 3} ∧
    degree (buildGraph rows3) 2 = 2 ∧
    degree (buildGraph rows3) 1 = 1 ∧
    degree (buildGraph rows3) 3 = 1 := by
  decide

/-- Helper: the fold underlying largestOf returns either a list element or
the start value, never shrinks the cardinality of the start value, and
dominates the cardinality of every list element. -/
theorem largestOf_aux (t : List (Finset Nat)) :
    ∀ acc : Finset Nat,
      (t.foldl (fun best x => if best.card < x.card then x else best) acc ∈ t ∨
        t.foldl (fun best x => if best.card < x.card then x else best) acc = acc) ∧
      acc.card ≤ (t.foldl (fun best x => if best.card < x.card then x else best) acc).card ∧
      ∀ x ∈ t, x.card ≤ (t.foldl (fun best x => if best.card < x.card then x else best) acc).card := by
  induction t with
  | nil =>
    intro acc
    refine ⟨Or.inr rfl, le_refl _, ?_⟩
    intro x hx
    simp at hx
  | cons a t ih =>
    intro acc
    simp only [List.foldl_cons]
    obtain ⟨h1, h2, h3⟩ := ih (if acc.card < a.card then a else acc)
    have hstep : acc.card ≤ (if acc.card < a.card then a else acc).card := by
      by_cases hc : acc.card < a.card
      · rw [if_pos hc]; omega
      · rw [if_neg hc]
    have hstepa : a.card ≤ (if acc.card < a.card then a else acc).card := by
      by_cases hc : acc.card < a.card
      · rw [if_pos hc]
      · rw [if_neg hc]; omega
    refine ⟨?_, le_trans hstep h2, ?_⟩
    · rcases h1 with h1 | h1
      · exact Or.inl (List.mem_cons_of_mem _ h1)
      · by_cases hc : acc.card < a.card
        · rw [h1, if_pos hc]
          exact Or.inl (List.mem_cons_self _ _)
        · rw [h1, if_neg hc]
          exact Or.inr rfl
    · intro x hx
      rcases List.mem_cons.mp hx with rfl | hx
      · exact le_trans hstepa h2
      · exact h3 x hx

/-- Helper: largestOf returns a list element or the empty set, and its
cardinality dominates every list element. -/
theorem largestOf_spec (l : List (Finset Nat)) :
    (largestOf l ∈ l ∨ largestOf l = ∅) ∧ ∀ x ∈ l, x.card ≤ (largestOf l).card := by
  have h := largestOf_aux l ∅
  exact ⟨h.1, h.2.2⟩

/-- Helper: every breadth iterate from a node stays inside the node set. -/
theorem iterate_nbrsStep_subset (G : Graph) (v : Nat) (hv : v ∈ G.nodes) :
    ∀ n, (nbrsStep G)^[n] {v} ⊆ G.nodes := by
  intro n
  induction n with
  | zero => simpa using Finset.singleton_subset_iff.mpr hv
  | succ n ih =>
    rw [Function.iterate_succ_apply']
    exact Finset.union_subset ih (Finset.filter_subset _ _)

/-- Helper: the saturated reachable set stays inside the node set. -/
theorem reach_subset_nodes (G : Graph) (v : Nat) (hv : v ∈ G.nodes) :
    reach G v ⊆ G.nodes :=
  iterate_nbrsStep_subset G v hv _

/-- Helper: every entry of the component enumeration is the reachable set
of some node. -/
theorem mem_componentsList (G : Graph) (x : Finset Nat) (hx : x ∈ componentsList G) :
    ∃ v ∈ G.nodes, x = reach G v := by
  unfold componentsList at hx
  obtain ⟨v, hv, rfl⟩ := List.mem_map.mp hx
  exact ⟨v, (Finset.mem_sort _).mp hv, rfl⟩

/-- Helper: a successfully extracted main component is a subset of the
full node set. -/
theorem mainComponent_subset (G : Graph) (c : Finset Nat)
    (hc : mainComponent G = Except.ok c) : c ⊆ G.nodes := by
  unfold mainComponent at hc
  by_cases h0 : G.nodes.card = 0
  · rw [if_pos h0] at hc
    cases hc
  · rw [if_neg h0] at hc
    by_cases hcon : isConnectedB G
    · rw [if_pos hcon] at hc
      rw [← Except.ok.inj hc]
    · rw [if_neg hcon] at hc
      rw [← Except.ok.inj hc]
      rcases (largestOf_spec (componentsList G)).1 with hm | hm
      · obtain ⟨v, hv, hrv⟩ := mem_componentsList G _ hm
        rw [hrv]
        exact reach_subset_nodes G v hv
      · rw [hm]
        exact Finset.empty_subset _

/-- C2: in the graph the builder returns, every edge weight reaches the
threshold MIN_COOCCURRENCE, no edge is a self loop, each unordered pair is
stored at most once, and the main component never has more nodes than the
full graph. -/
theorem buildGraph_output_guarantees (rows : List Row) :
    (∀ p ∈ (buildGraph rows).edges,
        (MIN_COOCCURRENCE : Int) ≤ (buildGraph rows).w p ∧
        p.1 ≠ p.2 ∧ (p.2, p.1) ∉ (buildGraph rows).edges) ∧
    ∀ c, mainComponent (buildGraph rows) = Except.ok c →
      c.card ≤ (buildGraph rows).nodes.card := by
  constructor
  · intro p hp
    have hp' := Finset.mem_filter.mp hp
    refine ⟨?_, Nat.ne_of_lt hp'.2.1, ?_⟩
    · have hw : MIN_COOCCURRENCE ≤ cooccurrence rows p.1 p.2 := hp'.2.2
      show (MIN_COOCCURRENCE : Int) ≤ (cooccurrence rows p.1 p.2 : Int)
      exact_mod_cast hw
    · intro hcontra
      have h2 := (Finset.mem_filter.mp hcontra).2.1
      have h1 := hp'.2.1
      simp only [] at h1 h2
      omega
  · intro c hc
    exact Finset.card_le_card (mainComponent_subset _ _ hc)

/-- Helper: permuting the input rows permutes the filtered rows. -/
theorem validRows_perm {r1 r2 : List Row} (h : r1.Perm r2) :
    (validRows r1).Perm (validRows r2) :=
  h.filter _

/-- Helper: the patient key set ignores row order. -/
theorem persons_perm_eq {r1 r2 : List Row} (h : r1.Perm r2) :
    persons r1 = persons r2 :=
  List.toFinset_eq_of_perm _ _ ((validRows_perm h).map _)

/-- Helper: each patient disease set ignores row order. -/
theorem patientDiseases_perm_eq {r1 r2 : List Row} (h : r1.Perm r2) (p : Nat) :
    patientDiseases r1 p = patientDiseases r2 p :=
  List.toFinset_eq_of_perm _ _ (((validRows_perm h).filter _).map _)

/-- Helper: the counter ignores row order. -/
theorem cooccurrence_perm_eq {r1 r2 : List Row} (h : r1.Perm r2) (a b : Nat) :
    cooccurrence r1 a b = cooccurrence r2 a b := by
  unfold cooccurrence
  rw [persons_perm_eq h]
  exact Finset.sum_congr rfl (fun p _ => by rw [patientDiseases_perm_eq h])

/-- Helper: the node identifier set ignores row order. -/
theorem diseaseIds_perm_eq {r1 r2 : List Row} (h : r1.Perm r2) :
    diseaseIds r1 = diseaseIds r2 :=
  List.toFinset_eq_of_perm _ _ ((validRows_perm h).map _)

/-- C8: the builder is invariant under input row ordering; any permutation
of the records yields the same node set, the same edge set, and the same
weight on every pair. -/
theorem buildGraph_perm_invariant (r1 r2 : List Row) (h : r1.Perm r2) :
    (buildGraph r1).nodes = (buildGraph r2).nodes ∧
    (buildGraph r1).edges = (buildGraph r2).edges ∧
    ∀ p : Nat × Nat, (buildGraph r1).w p = (buildGraph r2).w p := by
  refine ⟨diseaseIds_perm_eq h, ?_, ?_⟩
  · show Finset.filter _ _ = Finset.filter _ _
    rw [diseaseIds_perm_eq h]
    apply Finset.filter_congr
    intro x _
    rw [cooccurrence_perm_eq h]
  · intro p
    show (cooccurrence r1 p.1 p.2 : Int) = (cooccurrence r2 p.1 p.2 : Int)
    rw [cooccurrence_perm_eq h]

/-- C4: for a node of the graph, degree centrality is degree over N minus
one behind the node count guard and zero otherwise, and normalised
strength is strength over the maximum strength, defined as zero for every
node when the maximum strength vanishes, as it does on a graph with no
edges; each division is guarded. -/
theorem centrality_normalization (G : Graph) (v : Nat) (hv : v ∈ G.nodes) :
    (1 < G.nodes.card →
      degCentrality G v = (degree G v : ℚ) / ((G.nodes.card : ℚ) - 1)) ∧
    (G.nodes.card ≤ 1 → degCentrality G v = 0) ∧
    (0 < maxStrengthSpec G →
      strengthNorm G v = (strength G v : ℚ) / ((maxStrengthSpec G : ℚ))) ∧
    (maxStrengthSpec G = 0 → strengthNorm G v = 0) ∧
    (G.edges = ∅ → maxStrengthSpec G = 0) := by
  have himg : (G.nodes.image (strength G)).Nonempty :=
    ⟨strength G v, Finset.mem_image_of_mem _ hv⟩
  have hcode : maxStrengthCode G = maxStrengthSpec G := by
    unfold maxStrengthCode maxStrengthSpec
    obtain ⟨m, hm⟩ := Finset.max_of_nonempty himg
    rw [hm]
    rfl
  refine ⟨?_, ?_, ?_, ?_, ?_⟩
  · intro h
    unfold degCentrality
    rw [if_pos h]
  · intro h
    unfold degCentrality
    rw [if_neg (by omega)]
  · intro h
    unfold strengthNorm
    rw [if_pos (by rw [hcode]; exact h), hcode]
  · intro h
    have hng : ¬ 0 < maxStrengthCode G := by
      rw [hcode, h]
      exact lt_irrefl 0
    unfold strengthNorm
    rw [if_neg hng]
  · intro h
    have hs : ∀ u ∈ G.nodes, strength G u = 0 := by
      intro u _
      unfold strength
      have hn : nbr G u = ∅ := by
        apply Finset.filter_eq_empty_iff.mpr
        intro x _
        simp [adjB, h]
      rw [hn, Finset.sum_empty]
    have himg0 : G.nodes.image (strength G) = {0} := by
      ext x
      simp only [Finset.mem_image, Finset.mem_singleton]
      constructor
      · rintro ⟨u, hu, rfl⟩
        exact hs u hu
      · intro hx
        exact ⟨v, hv, by rw [hs v hv, hx]⟩
    unfold maxStrengthSpec
    rw [himg0]
    rfl

/-- C5: the distance attribute of an edge with positive weight is exactly
the reciprocal weight and its denominator is nonzero, while an edge with a
non-positive weight receives distance one through the guard rather than a
division by zero. -/
theorem edgeDistance_guard (G : Graph) (p : Nat × Nat) (_hp : p ∈ G.edges) :
    (0 < G.w p → edgeDistance G p = 1 / (G.w p : ℚ) ∧ ((G.w p : ℚ) ≠ 0)) ∧
    (G.w p ≤ 0 → edgeDistance G p = 1) := by
  constructor
  · intro h
    constructor
    · unfold edgeDistance
      rw [if_pos h]
    · exact Int.cast_ne_zero.mpr (ne_of_gt h)
  · intro h
    unfold edgeDistance
    rw [if_neg (not_lt.mpr h)]

/-- Helper: the deduplication worker emits an element exactly when it
occurs in the remaining list and was not seen before. -/
theorem mem_dedupFirstAux (l : List (Nat × String)) :
    ∀ seen a, a ∈ dedupFirstAux seen l ↔ a ∈ l ∧ a ∉ seen := by
  induction l with
  | nil =>
    intro seen a
    simp [dedupFirstAux]
  | cons x l ih =>
    intro seen a
    by_cases hx : x ∈ seen
    · rw [dedupFirstAux, if_pos hx, ih]
      constructor
      · rintro ⟨hal, has⟩
        exact ⟨List.mem_cons_of_mem _ hal, has⟩
      · rintro ⟨hal, has⟩
        rcases List.mem_cons.mp hal with rfl | hal
        · exact absurd hx has
        · exact ⟨hal, has⟩
    · rw [dedupFirstAux, if_neg hx]
      constructor
      · intro ha
        rcases List.mem_cons.mp ha with rfl | ha
        · exact ⟨List.mem_cons_self _ _, hx⟩
        · obtain ⟨hal, has⟩ := (ih _ _).mp ha
          refine ⟨List.mem_cons_of_mem _ hal, fun hub => has (List.mem_cons_of_mem _ hub)⟩
      · rintro ⟨hal, has⟩
        by_cases hax : a = x
        · exact hax ▸ List.mem_cons_self _ _
        · rcases List.mem_cons.mp hal with rfl | hal
          · exact absurd rfl hax
          · refine List.mem_cons_of_mem _ ((ih _ _).mpr ⟨hal, ?_⟩)
            intro hc
            rcases List.mem_cons.mp hc with rfl | hc
            · exact hax rfl
            · exact has hc

/-- Helper: membership is preserved by the first-occurrence deduplication. -/
theorem mem_dedupFirst (l : List (Nat × String)) :
    ∀ a, a ∈ dedupFirst l ↔ a ∈ l := by
  intro a
  unfold dedupFirst
  rw [mem_dedupFirstAux]
  simp

/-- Helper: appending one pair to the association list updates the
dictionary at exactly that key. -/
theorem dictOf_append (ps : List (Nat × String)) (p : Nat × String) (k : Nat) :
    dictOf (ps ++ [p]) k = if k = p.1 then some p.2 else dictOf ps k := by
  unfold dictOf
  rw [List.foldl_append]
  rfl

/-- Helper: the dictionary built by left-to-right insertion returns the
value of the last pair carrying the key. -/
theorem dictOf_eq_getLast (ps : List (Nat × String)) (k : Nat) :
    dictOf ps k = ((ps.filter (fun q => q.1 = k)).map Prod.snd).getLast? := by
  induction ps using List.reverseRecOn with
  | nil => rfl
  | append_singleton l p ih =>
    rw [dictOf_append, List.filter_append, List.map_append]
    by_cases h : k = p.1
    · rw [if_pos h]
      have hf : List.filter (fun q => decide (q.1 = k)) [p] = [p] := by simp [h]
      rw [hf]
      simp
    · rw [if_neg h, ih]
      have hf : List.filter (fun q => decide (q.1 = k)) [p] = [] := by simp [Ne.symm h]
      rw [hf]
      simp

/-- C6 counterexample: on the conflicting input the lookup returns the
later distinct name Bronchitis, not the first observed name Asthma that
the claim announces. -/
theorem diseaseNameMap_not_first_observed :
    firstName rowsConflict 1 = some "Asthma" ∧
    diseaseNameMap rowsConflict 1 = some "Bronchitis" ∧
    diseaseNameMap rowsConflict 1 ≠ firstName rowsConflict 1 := by
  decide

/-- C6 amended: the lookup assigns the single distinct name whenever only
one non-missing name is observed for the identifier; in general it returns
the last entry, in first-occurrence order of the distinct id-name pairs,
carrying the identifier, so on conflicts the most recently first-seen
distinct name wins rather than the first observed one. -/
theorem diseaseNameMap_amended (rows : List Row) (d : Nat) :
    (∀ s, (∃ q ∈ namePairs rows, q.1 = d) →
      (∀ q ∈ namePairs rows, q.1 = d → q.2 = s) →
      diseaseNameMap rows d = some s) ∧
    diseaseNameMap rows d =
      (((dedupFirst (namePairs rows)).filter (fun q => q.1 = d)).map Prod.snd).getLast? := by
  have hchar : diseaseNameMap rows d =
      (((dedupFirst (namePairs rows)).filter (fun q => q.1 = d)).map Prod.snd).getLast? :=
    dictOf_eq_getLast _ _
  refine ⟨?_, hchar⟩
  rintro s ⟨q0, hq0, hq0d⟩ hall
  rw [hchar]
  have hq0L : q0 ∈ (dedupFirst (namePairs rows)).filter (fun q => q.1 = d) := by
    rw [List.mem_filter]
    exact ⟨(mem_dedupFirst _ q0).mpr hq0, by simp [hq0d]⟩
  have hne2 : ((dedupFirst (namePairs rows)).filter (fun q => q.1 = d)).map Prod.snd ≠ [] := by
    intro hh
    rw [List.map_eq_nil_iff] at hh
    rw [hh] at hq0L
    simp at hq0L
  have hallL : ∀ x ∈ ((dedupFirst (namePairs rows)).filter (fun q => q.1 = d)).map Prod.snd,
      x = s := by
    intro x hx
    obtain ⟨q, hq, rfl⟩ := List.mem_map.mp hx
    have hq' := List.mem_filter.mp hq
    exact hall q ((mem_dedupFirst _ q).mp hq'.1) (by simpa using hq'.2)
  rw [List.getLast?_eq_getLast _ hne2]
  exact congrArg some (hallL _ (List.getLast_mem hne2))

/-- C10: a community holding exactly one node reports member count one,
zero internal edges, density zero and average clustering zero; every
division behind these numbers is guarded, so the degenerate density
formula at one node never faults. Self-loop freedom of the input graph is
assumed, as the builder guarantees it. -/
theorem commSummary_singleton (G : Graph) (part : Nat → Nat) (c : Nat)
    (hno : ∀ p ∈ G.edges, p.1 ≠ p.2)
    (h1 : (commMembers G part c).card = 1) :
    commSummary G part c = (1, 0, 0, 0) := by
  obtain ⟨v, hv⟩ := Finset.card_eq_one.mp h1
  have hvG : v ∈ G.nodes := by
    have hvm : v ∈ commMembers G part c := by
      rw [hv]
      exact Finset.mem_singleton_self v
    exact Finset.mem_of_mem_filter v hvm
  have hedges : (inducedSubgraph G (commMembers G part c)).edges = ∅ := by
    rw [Finset.eq_empty_iff_forall_not_mem]
    intro p hp
    have hp' := Finset.mem_filter.mp hp
    obtain ⟨hp1, hp2⟩ := hp'.2
    have h1v : p.1 = v := by
      have hm := Finset.mem_inter.mp hp1
      rw [hv] at hm
      exact Finset.mem_singleton.mp hm.1
    have h2v : p.2 = v := by
      have hm := Finset.mem_inter.mp hp2
      rw [hv] at hm
      exact Finset.mem_singleton.mp hm.1
    exact hno p hp'.1 (h1v.trans h2v.symm)
  have hnodes : (inducedSubgraph G (commMembers G part c)).nodes = {v} := by
    show commMembers G part c ∩ G.nodes = {v}
    rw [hv]
    exact Finset.inter_eq_left.mpr (Finset.singleton_subset_iff.mpr hvG)
  have hcard0 : (inducedSubgraph G (commMembers G part c)).edges.card = 0 := by
    rw [hedges]
    rfl
  have hdens : density (inducedSubgraph G (commMembers G part c)) = 0 := by
    unfold density
    rw [if_pos (Or.inl hcard0)]
  have hdeg : degree (inducedSubgraph G (commMembers G part c)) v = 0 := by
    apply Finset.card_eq_zero.mpr
    apply Finset.filter_eq_empty_iff.mpr
    intro u _
    simp [adjB, hedges]
  have hcl : clustering (inducedSubgraph G (commMembers G part c)) v = 0 := by
    unfold clustering
    rw [if_pos (by rw [hdeg]; omega)]
  have havg : avgClustering (inducedSubgraph G (commMembers G part c)) = 0 := by
    unfold avgClustering
    rw [hnodes, Finset.sum_singleton, hcl]
    simp
  unfold commSummary
  rw [Prod.mk.injEq, Prod.mk.injEq, Prod.mk.injEq]
  exact ⟨h1, hcard0, hdens, havg⟩

/-- Helper: membership in the canonical enumeration of a multiset. -/
theorem mem_sortPairs (m : Multiset (Nat × Nat)) (e : Nat × Nat) :
    e ∈ sortPairs m ↔ e ∈ m :=
  Quotient.inductionOn m (fun l => by
    show e ∈ l.insertionSort pairLe ↔ e ∈ (l : Multiset (Nat × Nat))
    rw [Multiset.mem_coe]
    exact (List.perm_insertionSort pairLe l).mem_iff)

/-- Helper: the canonical enumeration of a duplicate-free multiset has no
duplicate entries. -/
theorem nodup_sortPairs (m : Multiset (Nat × Nat)) (h : m.Nodup) :
    (sortPairs m).Nodup := by
  revert h
  exact Quotient.inductionOn m
    (fun l hl => ((List.perm_insertionSort pairLe l).nodup_iff).mpr hl)

/-- Helper: the edge enumeration lists exactly the stored edges. -/
theorem mem_edgeList (G : Graph) (e : Nat × Nat) : e ∈ edgeList G ↔ e ∈ G.edges := by
  unfold edgeList
  rw [mem_sortPairs]
  rfl

/-- Helper: the edge enumeration has no duplicate entries. -/
theorem nodup_edgeList (G : Graph) : (edgeList G).Nodup :=
  nodup_sortPairs _ G.edges.nodup

/-- Helper: the edge enumeration collects back to the edge set. -/
theorem edgeList_toFinset (G : Graph) : (edgeList G).toFinset = G.edges := by
  ext e
  rw [List.mem_toFinset, mem_edgeList]

/-- Helper: an intra-community edge leaves the accumulator unchanged. -/
theorem addCEdge_intra (part : Nat → Nat) (w : Nat × Nat → Int)
    (acc : Finset (Nat × Nat) × ((Nat × Nat) → Int)) (e : Nat × Nat)
    (hpe : part e.1 = part e.2) : addCEdge part w acc e = acc := by
  unfold addCEdge
  rw [if_pos hpe]

/-- Helper: a crossing edge whose key is already present accumulates onto
the stored weight. -/
theorem addCEdge_hit (part : Nat → Nat) (w : Nat × Nat → Int)
    (acc : Finset (Nat × Nat) × ((Nat × Nat) → Int)) (e : Nat × Nat)
    (hpe : ¬ part e.1 = part e.2) (hk : ckey (part e.1) (part e.2) ∈ acc.1) :
    addCEdge part w acc e =
      (acc.1, fun q => if q = ckey (part e.1) (part e.2) then acc.2 q + w e else acc.2 q) := by
  unfold addCEdge
  rw [if_neg hpe, if_pos hk]

/-- Helper: a crossing edge with a fresh key creates the inter-community
edge carrying the weight of the crossing edge. -/
theorem addCEdge_miss (part : Nat → Nat) (w : Nat × Nat → Int)
    (acc : Finset (Nat × Nat) × ((Nat × Nat) → Int)) (e : Nat × Nat)
    (hpe : ¬ part e.1 = part e.2) (hk : ckey (part e.1) (part e.2) ∉ acc.1) :
    addCEdge part w acc e =
      (insert (ckey (part e.1) (part e.2)) acc.1,
       fun q => if q = ckey (part e.1) (part e.2) then w e else acc.2 q) := by
  unfold addCEdge
  rw [if_neg hpe, if_neg hk]

/-- Helper: after folding the edge pass, a key is stored exactly when it
was already stored or some processed edge crosses to it. -/
theorem foldl_addCEdge_mem (part : Nat → Nat) (w : Nat × Nat → Int) (l : List (Nat × Nat)) :
    ∀ (acc : Finset (Nat × Nat) × ((Nat × Nat) → Int)) (q : Nat × Nat),
      q ∈ (l.foldl (addCEdge part w) acc).1 ↔ q ∈ acc.1 ∨ ∃ e ∈ l, crossTo part e q := by
  induction l with
  | nil =>
    intro acc q
    simp
  | cons e l ih =>
    intro acc q
    rw [List.foldl_cons, ih]
    have hsplit : (∃ x ∈ e :: l, crossTo part x q) ↔
        crossTo part e q ∨ ∃ x ∈ l, crossTo part x q := by
      simp only [List.mem_cons, or_and_right, exists_or, exists_eq_left]
    rw [hsplit]
    by_cases hpe : part e.1 = part e.2
    · rw [addCEdge_intra part w acc e hpe]
      have hcf : ¬ crossTo part e q := fun hc => hc.1 hpe
      tauto
    · by_cases hk : ckey (part e.1) (part e.2) ∈ acc.1
      · rw [addCEdge_hit part w acc e hpe hk]
        have himp : crossTo part e q → q ∈ acc.1 := fun hc => hc.2 ▸ hk
        tauto
      · rw [addCEdge_miss part w acc e hpe hk]
        have hiff : crossTo part e q ↔ q = ckey (part e.1) (part e.2) :=
          ⟨fun hc => hc.2.symm, fun hq => ⟨hpe, hq.symm⟩⟩
        simp only [Finset.mem_insert]
        tauto

/-- Helper: after folding the edge pass from an accumulator that vanishes
off its stored keys, the weight at any key grows by exactly the sum of the
weights of the processed edges crossing to it. -/
theorem foldl_addCEdge_w (part : Nat → Nat) (w : Nat × Nat → Int) (l : List (Nat × Nat)) :
    ∀ (acc : Finset (Nat × Nat) × ((Nat × Nat) → Int)),
      (∀ q, q ∉ acc.1 → acc.2 q = 0) →
      ∀ q, (l.foldl (addCEdge part w) acc).2 q =
        acc.2 q + (l.map (fun e => if crossTo part e q then w e else 0)).sum := by
  induction l with
  | nil =>
    intro acc _ q
    simp
  | cons e l ih =>
    intro acc hacc q
    rw [List.foldl_cons, List.map_cons, List.sum_cons]
    by_cases hpe : part e.1 = part e.2
    · rw [addCEdge_intra part w acc e hpe, ih acc hacc q]
      have hz : (if crossTo part e q then w e else 0) = 0 :=
        if_neg (fun hc => hc.1 hpe)
      rw [hz, zero_add]
    · by_cases hk : ckey (part e.1) (part e.2) ∈ acc.1
      · rw [addCEdge_hit part w acc e hpe hk]
        have hacc2 : ∀ q2,
            q2 ∉ (acc.1, fun q3 => if q3 = ckey (part e.1) (part e.2)
              then acc.2 q3 + w e else acc.2 q3).1 →
            (acc.1, fun q3 => if q3 = ckey (part e.1) (part e.2)
              then acc.2 q3 + w e else acc.2 q3).2 q2 = 0 := by
          intro q2 hq2
          have hq2k : q2 ≠ ckey (part e.1) (part e.2) := fun hh => hq2 (hh ▸ hk)
          show (if q2 = ckey (part e.1) (part e.2) then acc.2 q2 + w e else acc.2 q2) = 0
          rw [if_neg hq2k]
          exact hacc q2 hq2
        rw [ih _ hacc2 q]
        show (if q = ckey (part e.1) (part e.2) then acc.2 q + w e else acc.2 q) + _ = _
        by_cases hqk : q = ckey (part e.1) (part e.2)
        · rw [if_pos hqk]
          have hcr : crossTo part e q := ⟨hpe, hqk.symm⟩
          rw [if_pos hcr]
          ring
        · rw [if_neg hqk]
          have hcr : ¬ crossTo part e q := fun hc => hqk hc.2.symm
          rw [if_neg hcr, zero_add]
      · rw [addCEdge_miss part w acc e hpe hk]
        have hacc2 : ∀ q2,
            q2 ∉ (insert (ckey (part e.1) (part e.2)) acc.1,
              fun q3 => if q3 = ckey (part e.1) (part e.2) then w e else acc.2 q3).1 →
            (insert (ckey (part e.1) (part e.2)) acc.1,
              fun q3 => if q3 = ckey (part e.1) (part e.2) then w e else acc.2 q3).2 q2 = 0 := by
          intro q2 hq2
          have hmem := Finset.mem_insert.not.mp hq2
          push_neg at hmem
          show (if q2 = ckey (part e.1) (part e.2) then w e else acc.2 q2) = 0
          rw [if_neg hmem.1]
          exact hacc q2 hmem.2
        rw [ih _ hacc2 q]
        show (if q = ckey (part e.1) (part e.2) then w e else acc.2 q) + _ = _
        by_cases hqk : q = ckey (part e.1) (part e.2)
        · rw [if_pos hqk]
          have hcr : crossTo part e q := ⟨hpe, hqk.symm⟩
          rw [if_pos hcr]
          have hzero : acc.2 q = 0 := by
            apply hacc
            rw [hqk]
            exact hk
          rw [hzero, zero_add]
        · rw [if_neg hqk]
          have hcr : ¬ crossTo part e q := fun hc => hqk hc.2.symm
          rw [if_neg hcr, zero_add]

/-- C9: the community graph has one node per community identifier with the
member count as its size attribute; a key is an inter-community edge
exactly when some original edge crosses between the two distinct
communities, every stored key joins two distinct community identifiers,
and the stored weight at any key is the sum of the original edge weights
crossing to it. -/
theorem communityGraph_spec (G : Graph) (part : Nat → Nat) :
    ((communityGraph G part).cnodes = G.nodes.image part) ∧
    (∀ c, (communityGraph G part).csize c = (commMembers G part c).card) ∧
    (∀ q, q ∈ (communityGraph G part).cedges ↔ ∃ e ∈ G.edges, crossTo part e q) ∧
    (∀ q ∈ (communityGraph G part).cedges, q.1 ≠ q.2) ∧
    (∀ q, (communityGraph G part).cw q =
      ∑ e ∈ G.edges, if crossTo part e q then G.w e else 0) := by
  have hmem : ∀ q, q ∈ (communityGraph G part).cedges ↔ ∃ e ∈ G.edges, crossTo part e q := by
    intro q
    show q ∈ ((edgeList G).foldl (addCEdge part G.w) (∅, fun _ => 0)).1 ↔ _
    rw [foldl_addCEdge_mem]
    constructor
    · rintro (h | ⟨e, he, hc⟩)
      · exact absurd h (Finset.not_mem_empty q)
      · exact ⟨e, (mem_edgeList G e).mp he, hc⟩
    · rintro ⟨e, he, hc⟩
      exact Or.inr ⟨e, (mem_edgeList G e).mpr he, hc⟩
  refine ⟨rfl, fun c => rfl, hmem, ?_, ?_⟩
  · intro q hq
    obtain ⟨e, _, hc⟩ := (hmem q).mp hq
    rw [← hc.2]
    exact ne_of_lt (min_lt_max.mpr hc.1)
  · intro q
    show ((edgeList G).foldl (addCEdge part G.w) (∅, fun _ => 0)).2 q = _
    rw [foldl_addCEdge_w part G.w (edgeList G) (∅, fun _ => 0) (fun q2 _ => rfl) q]
    have h0 : ((∅, fun _ => (0 : Int)) :
        Finset (Nat × Nat) × ((Nat × Nat) → Int)).2 q = 0 := rfl
    rw [h0, zero_add, ← List.sum_toFinset _ (nodup_edgeList G), edgeList_toFinset]

/-- Helper: one breadth step only grows the frontier. -/
theorem subset_nbrsStep (G : Graph) (s : Finset Nat) : s ⊆ nbrsStep G s :=
  Finset.subset_union_left

/-- Helper: breadth iterates grow along the iteration count. -/
theorem iterate_nbrsStep_mono (G : Graph) (v : Nat) (n : Nat) :
    (nbrsStep G)^[n] {v} ⊆ (nbrsStep G)^[n + 1] {v} := by
  rw [Function.iterate_succ_apply']
  exact subset_nbrsStep G _

/-- Helper: the start node stays in every breadth iterate. -/
theorem singleton_subset_iterate (G : Graph) (v : Nat) (n : Nat) :
    ({v} : Finset Nat) ⊆ (nbrsStep G)^[n] {v} := by
  induction n with
  | zero => exact subset_rfl
  | succ n ih => exact ih.trans (iterate_nbrsStep_mono G v n)

/-- Helper: a node reaches itself. -/
theorem mem_reach_self (G : Graph) (v : Nat) : v ∈ reach G v :=
  singleton_subset_iterate G v _ (Finset.mem_singleton_self v)

/-- Helper: a fixed point of the breadth step absorbs every further
iteration. -/
theorem iterate_fix_of_eq (G : Graph) (s : Finset Nat) (h : nbrsStep G s = s) :
    ∀ m, (nbrsStep G)^[m] s = s := by
  intro m
  induction m with
  | zero => rfl
  | succ m ih => rw [Function.iterate_succ_apply', ih, h]

/-- Helper: after as many breadth steps as there are nodes, the frontier
is a fixed point of the breadth step; otherwise every step would grow the
frontier strictly beyond the node count. -/
theorem reach_fixed (G : Graph) (v : Nat) (hv : v ∈ G.nodes) :
    nbrsStep G (reach G v) = reach G v := by
  by_contra hne
  have hk : ∀ k, k ≤ G.nodes.card →
      nbrsStep G ((nbrsStep G)^[k] {v}) ≠ (nbrsStep G)^[k] {v} := by
    intro k hkle hfix
    apply hne
    have hiter : (nbrsStep G)^[G.nodes.card] {v} = (nbrsStep G)^[k] {v} := by
      calc (nbrsStep G)^[G.nodes.card] {v}
          = (nbrsStep G)^[(G.nodes.card - k) + k] {v} := by
            congr 1
            omega
        _ = (nbrsStep G)^[G.nodes.card - k] ((nbrsStep G)^[k] {v}) :=
            Function.iterate_add_apply _ _ _ _
        _ = (nbrsStep G)^[k] {v} := iterate_fix_of_eq G _ hfix _
    show nbrsStep G (reach G v) = reach G v
    unfold reach
    rw [hiter, hfix]
  have hgrow : ∀ k, k ≤ G.nodes.card → k + 1 ≤ ((nbrsStep G)^[k] {v}).card := by
    intro k
    induction k with
    | zero =>
      intro _
      simp
    | succ k ih =>
      intro hle
      have h1 : k + 1 ≤ ((nbrsStep G)^[k] {v}).card := ih (by omega)
      have hne2 : (nbrsStep G)^[k] {v} ≠ (nbrsStep G)^[k + 1] {v} := by
        intro heq
        apply hk k (by omega)
        rw [← Function.iterate_succ_apply' (nbrsStep G) k {v}]
        exact heq.symm
      have hss := (iterate_nbrsStep_mono G v k).ssubset_of_ne hne2
      have := Finset.card_lt_card hss
      omega
  have hN := hgrow G.nodes.card (le_refl _)
  have hle := Finset.card_le_card (iterate_nbrsStep_subset G v hv G.nodes.card)
  omega

/-- Helper: every member of a breadth iterate is reachable from the start. -/
theorem mem_iterate_reachable (G : Graph) (v : Nat) :
    ∀ n u, u ∈ (nbrsStep G)^[n] {v} → Reachable G v u := by
  intro n
  induction n with
  | zero =>
    intro u hu
    rw [Function.iterate_zero_apply] at hu
    rw [Finset.mem_singleton.mp hu]
    exact Relation.ReflTransGen.refl
  | succ n ih =>
    intro u hu
    rw [Function.iterate_succ_apply'] at hu
    rcases Finset.mem_union.mp hu with hu | hu
    · exact ih u hu
    · have hu' := Finset.mem_filter.mp hu
      obtain ⟨x, hx, hadj⟩ := hu'.2
      exact Relation.ReflTransGen.tail (ih x hx) hadj

/-- Helper: on a graph whose edges stay inside the node set, every node
reachable from the start lies in the saturated breadth set. -/
theorem reachable_mem_reach (G : Graph) (v : Nat) (hv : v ∈ G.nodes)
    (hwf : ∀ p ∈ G.edges, p.1 ∈ G.nodes ∧ p.2 ∈ G.nodes) :
    ∀ u, Reachable G v u → u ∈ reach G v := by
  intro u hr
  induction hr with
  | refl => exact mem_reach_self G v
  | @tail b c _ hadj ih =>
    have hc : c ∈ G.nodes := by
      rcases Bool.or_eq_true_iff.mp hadj with h | h
      · exact (hwf (b, c) (of_decide_eq_true h)).2
      · exact (hwf (c, b) (of_decide_eq_true h)).1
    have hstep : c ∈ nbrsStep G (reach G v) := by
      apply Finset.mem_union_right
      apply Finset.mem_filter.mpr
      exact ⟨hc, b, ih, hadj⟩
    rwa [reach_fixed G v hv] at hstep

/-- Helper: the saturated breadth set from a node is exactly the set of
nodes of the graph reachable from it. -/
theorem mem_reach_iff (G : Graph) (v : Nat) (hv : v ∈ G.nodes)
    (hwf : ∀ p ∈ G.edges, p.1 ∈ G.nodes ∧ p.2 ∈ G.nodes) (u : Nat) :
    u ∈ reach G v ↔ u ∈ G.nodes ∧ Reachable G v u := by
  constructor
  · intro hu
    exact ⟨reach_subset_nodes G v hv hu, mem_iterate_reachable G v _ u hu⟩
  · rintro ⟨_, hr⟩
    exact reachable_mem_reach G v hv hwf u hr

/-- Helper: the saturated breadth set of any node is a connected
component. -/
theorem isCompOf_reach (G : Graph) (v : Nat) (hv : v ∈ G.nodes)
    (hwf : ∀ p ∈ G.edges, p.1 ∈ G.nodes ∧ p.2 ∈ G.nodes) :
    IsCompOf G (reach G v) :=
  ⟨v, hv, fun u => mem_reach_iff G v hv hwf u⟩

/-- Helper: every connected component is the saturated breadth set of one
of its nodes. -/
theorem isCompOf_eq_reach (G : Graph) (c : Finset Nat)
    (hwf : ∀ p ∈ G.edges, p.1 ∈ G.nodes ∧ p.2 ∈ G.nodes)
    (hc : IsCompOf G c) : ∃ v ∈ G.nodes, c = reach G v := by
  obtain ⟨v, hv, hchar⟩ := hc
  refine ⟨v, hv, ?_⟩
  ext u
  rw [hchar u, mem_reach_iff G v hv hwf u]

/-- Helper: the saturated breadth set of every node is enumerated among
the components. -/
theorem reach_mem_componentsList (G : Graph) (v : Nat) (hv : v ∈ G.nodes) :
    reach G v ∈ componentsList G := by
  unfold componentsList
  exact List.mem_map_of_mem _ ((Finset.mem_sort _).mpr hv)

/-- C7: requesting the main component of a graph with no nodes fails with
the EmptyGraphError, while on every graph with at least one node, and
whose edges stay inside the node set, the extraction succeeds and returns
a connected component of maximal node count. -/
theorem mainComponent_spec (G : Graph)
    (hwf : ∀ p ∈ G.edges, p.1 ∈ G.nodes ∧ p.2 ∈ G.nodes) :
    (G.nodes = ∅ → mainComponent G = Except.error NetError.EmptyGraphError) ∧
    (G.nodes ≠ ∅ →
      ∃ c, mainComponent G = Except.ok c ∧ IsCompOf G c ∧
        ∀ d, IsCompOf G d → d.card ≤ c.card) := by
  constructor
  · intro h0
    unfold mainComponent
    rw [if_pos (by rw [h0]; rfl)]
  · intro hne
    have h0 : ¬ G.nodes.card = 0 := by
      intro hc
      exact hne (Finset.card_eq_zero.mp hc)
    obtain ⟨v0, hv0⟩ := Finset.nonempty_iff_ne_empty.mpr hne
    by_cases hcon : isConnectedB G
    · refine ⟨G.nodes, ?_, ?_, ?_⟩
      · unfold mainComponent
        rw [if_neg h0, if_pos hcon]
      · refine ⟨v0, hv0, fun u => ?_⟩
        constructor
        · intro hu
          exact ⟨hu, mem_iterate_reachable G v0 _ u (hcon u hu v0 hv0)⟩
        · rintro ⟨hu, _⟩
          exact hu
      · intro d hd
        obtain ⟨vd, hvd, rfl⟩ := isCompOf_eq_reach G d hwf hd
        exact Finset.card_le_card (reach_subset_nodes G vd hvd)
    · refine ⟨largestOf (componentsList G), ?_, ?_, ?_⟩
      · unfold mainComponent
        rw [if_neg h0, if_neg hcon]
      · rcases (largestOf_spec (componentsList G)).1 with hm | hm
        · obtain ⟨v, hv, heq⟩ := mem_componentsList G _ hm
          rw [heq]
          exact isCompOf_reach G v hv hwf
        · exfalso
          have hmem := reach_mem_componentsList G v0 hv0
          have hle := (largestOf_spec (componentsList G)).2 _ hmem
          rw [hm, Finset.card_empty] at hle
          have hpos : 0 < (reach G v0).card :=
            Finset.card_pos.mpr ⟨v0, mem_reach_self G v0⟩
          omega
      · intro d hd
        obtain ⟨vd, hvd, rfl⟩ := isCompOf_eq_reach G d hwf hd
        exact (largestOf_spec (componentsList G)).2 _ (reach_mem_componentsList G vd hvd)

theorem cooccurrence_pair_count_witness :
    (1 : Nat) ≠ 2 ∧
      cooccurrence rows3 (min 1 2) (max 1 2) =
        ((persons rows3).filter
          (fun p => 1 ∈ patientDiseases rows3 p ∧ 2 ∈ patientDiseases rows3 p)).card :=
  ⟨by decide, cooccurrence_pair_count rows3 1 2 (by decide)⟩

theorem buildGraph_output_guarantees_witness :
    ((1, 2) ∈ (buildGraph rows3).edges ∧
      (MIN_COOCCURRENCE : Int) ≤ (buildGraph rows3).w (1, 2) ∧
      ((1 : Nat), (2 : Nat)).1 ≠ ((1 : Nat), (2 : Nat)).2 ∧
      (2, 1) ∉ (buildGraph rows3).edges) ∧
    (mainComponent (buildGraph rows3) = Except.ok {1, 2, 3} ∧
      ({1, 2, 3} : Finset Nat).card ≤ (buildGraph rows3).nodes.card) :=
  ⟨⟨by decide, (buildGraph_output_guarantees rows3).1 (1, 2) (by decide)⟩,
   by decide, (buildGraph_output_guarantees rows3).2 {1, 2, 3} (by decide)⟩

theorem buildGraph_perm_invariant_witness :
    rows3.Perm rows3.reverse ∧
    ((buildGraph rows3).nodes = (buildGraph rows3.reverse).nodes ∧
      (buildGraph rows3).edges = (buildGraph rows3.reverse).edges ∧
      ∀ p : Nat × Nat, (buildGraph rows3).w p = (buildGraph rows3.reverse).w p) :=
  ⟨by decide, buildGraph_perm_invariant rows3 rows3.reverse (by decide)⟩

theorem centrality_normalization_witness :
    1 ∈ (buildGraph rows3).nodes ∧
    1 < (buildGraph rows3).nodes.card ∧
    degCentrality (buildGraph rows3) 1 =
      (degree (buildGraph rows3) 1 : ℚ) / (((buildGraph rows3).nodes.card : ℚ) - 1) :=
  ⟨by decide, by decide,
    (centrality_normalization (buildGraph rows3) 1 (by decide)).1 (by decide)⟩

theorem edgeDistance_guard_witness :
    ((1, 2) ∈ (buildGraph rows3).edges ∧ 0 < (buildGraph rows3).w (1, 2) ∧
      edgeDistance (buildGraph rows3) (1, 2) = 1 / ((buildGraph rows3).w (1, 2) : ℚ)) ∧
    ((1, 2) ∈ badGraph.edges ∧ badGraph.w (1, 2) ≤ 0 ∧ edgeDistance badGraph (1, 2) = 1) :=
  ⟨⟨by decide, by decide,
      ((edgeDistance_guard (buildGraph rows3) (1, 2) (by decide)).1 (by decide)).1⟩,
   ⟨by decide, by decide,
      (edgeDistance_guard badGraph (1, 2) (by decide)).2 (by decide)⟩⟩

theorem diseaseNameMap_amended_witness :
    diseaseNameMap rowsSingleName 7 = some "Flu" :=
  (diseaseNameMap_amended rowsSingleName 7).1 "Flu" (by decide) (by decide)

theorem commSummary_singleton_witness :
    (∀ p ∈ (buildGraph rows3).edges, p.1 ≠ p.2) ∧
    (commMembers (buildGraph rows3) (fun v => v) 1).card = 1 ∧
    commSummary (buildGraph rows3) (fun v => v) 1 = (1, 0, 0, 0) :=
  ⟨by decide, by decide,
    commSummary_singleton (buildGraph rows3) (fun v => v) 1 (by decide) (by decide)⟩

theorem communityGraph_spec_witness :
    (0, 1) ∈ (communityGraph (buildGraph rows3) (fun v => if v ≤ 2 then 0 else 1)).cedges ∧
    ((0 : Nat), (1 : Nat)).1 ≠ ((0 : Nat), (1 : Nat)).2 ∧
    (communityGraph (buildGraph rows3) (fun v => if v ≤ 2 then 0 else 1)).cw (0, 1) =
      ∑ e ∈ (buildGraph rows3).edges,
        if crossTo (fun v => if v ≤ 2 then 0 else 1) e (0, 1) then (buildGraph rows3).w e else 0 :=
  ⟨by decide,
   (communityGraph_spec (buildGraph rows3) (fun v => if v ≤ 2 then 0 else 1)).2.2.2.1
     (0, 1) (by decide),
   (communityGraph_spec (buildGraph rows3) (fun v => if v ≤ 2 then 0 else 1)).2.2.2.2 (0, 1)⟩

theorem mainComponent_spec_witness :
    (∀ p ∈ (buildGraph rows3).edges,
      p.1 ∈ (buildGraph rows3).nodes ∧ p.2 ∈ (buildGraph rows3).nodes) ∧
    (((buildGraph rows3).nodes = ∅ →
      mainComponent (buildGraph rows3) = Except.error NetError.EmptyGraphError) ∧
    ((buildGraph rows3).nodes ≠ ∅ →
      ∃ c, mainComponent (buildGraph rows3) = Except.ok c ∧
        IsCompOf (buildGraph rows3) c ∧
        ∀ d, IsCompOf (buildGraph rows3) d → d.card ≤ c.card)) :=
  ⟨by decide, mainComponent_spec (buildGraph rows3) (by decide)⟩
